import Mathlib

/-!
# find_plane_data.c : record codec and field normalisation

A shallow embedding of `src/find_plane_data.c` and the proofs of its claims.

* A character of the C program is a `Char`; a C string is the `List Char` of the
  characters that stand before its terminating NUL.
* An open `FILE*` is the list of characters not yet read.  A function that reads
  returns the new stream next to its result.  Read errors other than the end of
  the stream are not modelled.
* `fgets`, `strcspn`, `strncpy`, `isspace` follow the C standard ("C" locale: the
  program never calls `setlocale`).
* A `Plane` array with its count is the list of its first `count` records.
* What the program prints is not modelled.  Of the interactive loops only their
  outcome is: the accepted plane number, the accepted reply to each question and
  the standard input left when `get_string_input` runs.

The definitions come first, the source functions under their own names; the
claims `C1` to `C10` are the last section.
-/

namespace FindPlaneData

/-! ## Constants and the record type -/

abbrev MAX_PLANES : Nat := 10
abbrev LEN_NAME : Nat := 50
abbrev LEN_CRUISE : Nat := 10
abbrev LEN_WINGSPAN : Nat := 20
abbrev LEN_DESC : Nat := 100

/-- The struct `Plane`: each field is the C string held in its `char` array. -/
structure Plane where
  name : List Char
  cruise : List Char
  wingspan : List Char
  desc : List Char
deriving DecidableEq, Inhabited

/-! ## C library functions used by the program -/

/-- The `isspace` of the "C" locale: space, `\t`, `\n`, `\v`, `\f`, `\r`. -/
def isspace (c : Char) : Bool :=
  c == ' ' || c == '\t' || c == '\n' || c == '\x0b' || c == '\x0c' || c == '\r'

/-- The characters `fgets` stores when the buffer has room for `room` more of
them: it stops after a `'\n'`, at end of stream, or when the room is used up.
Returns the characters stored and the rest of the stream. -/
def fgets_chars : Nat → List Char → List Char × List Char
  | 0, fp => ([], fp)
  | _ + 1, [] => ([], [])
  | room + 1, c :: fp =>
    if c = '\n' then ([c], fp)
    else (c :: (fgets_chars room fp).1, (fgets_chars room fp).2)

/-- The call `fgets(buffer, size, fp)` for `size >= 2`: `none` is the `NULL`
returned at end of stream with nothing read; otherwise at most `size - 1`
characters are stored in the buffer. -/
def fgets (size : Nat) (fp : List Char) : Option (List Char × List Char) :=
  match fp with
  | [] => none
  | _ :: _ => some (fgets_chars (size - 1) fp)

/-- The C string held by a buffer: its characters up to the first NUL. -/
def c_str (buffer : List Char) : List Char :=
  buffer.takeWhile (fun c => c != '\x00')

/-- The statement `buffer[strcspn(buffer, "\n")] = '\0';` : the C string in the
buffer is cut at its first `'\n'`. -/
def strip_newline (buffer : List Char) : List Char :=
  (c_str buffer).takeWhile (fun c => c != '\n')

/-- The pair `strncpy(dst, src, len - 1); dst[len - 1] = '\0';` : `dst` holds
the first `len - 1` characters of the C string `src`. -/
def strncpy_field (len : Nat) (src : List Char) : List Char :=
  src.take (len - 1)

/-! ## trim_string -/

/-- The function `trim_string` on a string that is not `NULL`: first the
trailing whitespace is overwritten with NUL from the end, then the string is
shifted left over the leading whitespace. -/
def trim_string (str : List Char) : List Char :=
  (str.rdropWhile isspace).dropWhile isspace

/-- Normalisation as the program does it: keep the first `n - 1` characters
(`strncpy` into a field of size `n`), then `trim_string`. -/
def normalize (s : List Char) (n : Nat) : List Char :=
  trim_string (strncpy_field n s)

/-! ## read_plane_data and load_plane_data -/

/-- The `do ... while (strlen(buffer) == 0)` loop of `read_plane_data`: reads
lines until one is not empty once cut at its first `'\n'`.  `none` is the
`return false` at end of stream.  Every round consumes at least one character,
so `fuel` greater than the length of the stream is never used up. -/
def read_name_line : Nat → List Char → Option (List Char × List Char)
  | 0, _ => none
  | fuel + 1, fp =>
    match fgets LEN_DESC fp with
    | none => none
    | some (chunk, fp1) =>
      if (strip_newline chunk).length = 0 then read_name_line fuel fp1
      else some (strip_newline chunk, fp1)

/-- The function `read_plane_data`: `none` where the C function returns
`false` (the caller then never counts the partly written `*plane`), otherwise
the record read and the stream after it. -/
def read_plane_data (fp : List Char) : Option (Plane × List Char) :=
  match read_name_line (fp.length + 1) fp with
  | none => none
  | some (buffer1, fp1) =>
    match fgets LEN_DESC fp1 with
    | none => none
    | some (buffer2, fp2) =>
      match fgets LEN_DESC fp2 with
      | none => none
      | some (buffer3, fp3) =>
        match fgets LEN_DESC fp3 with
        | none => none
        | some (buffer4, fp4) =>
          some ({ name := strncpy_field LEN_NAME buffer1
                  cruise := strncpy_field LEN_CRUISE (strip_newline buffer2)
                  wingspan := strncpy_field LEN_WINGSPAN (strip_newline buffer3)
                  desc := strncpy_field LEN_DESC (strip_newline buffer4) }, fp4)

/-- The `while (plane_count < MAX_PLANES)` loop of `load_plane_data`, with
`room = MAX_PLANES - plane_count`: the records read, in order. -/
def load_loop : Nat → List Char → List Plane
  | 0, _ => []
  | room + 1, fp =>
    match read_plane_data fp with
    | some (plane, fp1) => plane :: load_loop room fp1
    | none => []

/-- The four `trim_string` calls of the last loop of `load_plane_data`. -/
def trim_plane (p : Plane) : Plane :=
  { name := trim_string p.name
    cruise := trim_string p.cruise
    wingspan := trim_string p.wingspan
    desc := trim_string p.desc }

/-- The function `load_plane_data`.  The argument is the content of the file,
`none` when `fopen` fails.  The result is the returned `plane_count` and the
records `planes[0 .. plane_count - 1]`. -/
def load_plane_data (file : Option (List Char)) : Nat × List Plane :=
  match file with
  | none => (0, [])
  | some fp => ((load_loop MAX_PLANES fp).length, (load_loop MAX_PLANES fp).map trim_plane)

/-! ## save_plane_data -/

/-- What one round `i` of the `for` loop of `save_plane_data` writes. -/
def write_plane (planes : List Plane) (count i : Nat) : List Char :=
  (planes.getD i default).name ++ ['\n'] ++ (planes.getD i default).cruise ++ ['\n'] ++
    (planes.getD i default).wingspan ++ ['\n'] ++
    (if i = count - 1 then (planes.getD i default).desc
     else (planes.getD i default).desc ++ ['\n'] ++ ['\n'])

/-- The function `save_plane_data` when `fopen` succeeds: the characters
written to the file, rounds `i = 0 .. count - 1` in order. -/
def save_plane_data (planes : List Plane) (count : Nat) : List Char :=
  ((List.range count).map (write_plane planes count)).flatten

/-! ## edit_plane -/

/-- The function `get_string_input` (the prompt is not modelled): `none` when
`fgets` returns `NULL`, otherwise the buffer and the rest of standard input. -/
def get_string_input (stdin : List Char) (max_length : Nat) : Option (List Char × List Char) :=
  match fgets max_length stdin with
  | none => none
  | some (buffer, rest) => some (trim_string (strip_newline buffer), rest)

/-- The end of `ask_edit_input`, after its loop has accepted `response`
(upper-cased, `'Y'` or `'N'`). -/
def ask_edit_input (response : Char) (stdin : List Char) (max_length : Nat) :
    Option (List Char × List Char) :=
  if response = 'Y' then get_string_input stdin max_length else none

/-- What the user gives to one question of `edit_plane`: the accepted reply and
the standard input left unread when `get_string_input` is reached. -/
structure Answer where
  response : Char
  stdin : List Char

/-- One `if (ask_edit_input(...)) { strncpy(...); field[len - 1] = '\0'; }`. -/
def edit_field (len : Nat) (old : List Char) (a : Answer) : List Char :=
  match ask_edit_input a.response a.stdin len with
  | some (buffer, _) => strncpy_field len buffer
  | none => old

/-- The function `edit_plane`, after its selection loop has accepted `choice`
(`1 <= choice <= count`): the four fields of `planes[choice - 1]` are edited in
turn, the other records are left as they are. -/
def edit_plane (planes : List Plane) (choice : Nat)
    (a_name a_cruise a_wingspan a_desc : Answer) : List Plane :=
  planes.set (choice - 1)
    { name := edit_field LEN_NAME (planes.getD (choice - 1) default).name a_name
      cruise := edit_field LEN_CRUISE (planes.getD (choice - 1) default).cruise a_cruise
      wingspan := edit_field LEN_WINGSPAN (planes.getD (choice - 1) default).wingspan a_wingspan
      desc := edit_field LEN_DESC (planes.getD (choice - 1) default).desc a_desc }

/-! ## Predicates used in the statements -/

/-- The string does not start with a whitespace character. -/
def starts_clean (s : List Char) : Bool := s.head?.all (fun c => !isspace c)

/-- The string does not end with a whitespace character. -/
def ends_clean (s : List Char) : Bool := s.getLast?.all (fun c => !isspace c)

/-- The stored form of a field with room for `cap` characters: at most `cap`
characters, no whitespace at either end. -/
def Normalized (cap : Nat) (s : List Char) : Prop :=
  s.length ≤ cap ∧ starts_clean s = true ∧ ends_clean s = true

instance (cap : Nat) (s : List Char) : Decidable (Normalized cap s) := by
  unfold Normalized; infer_instance

/-- The invariant of a record: every field is in stored form for its cap. -/
def PlaneNormalized (p : Plane) : Prop :=
  Normalized (LEN_NAME - 1) p.name ∧ Normalized (LEN_CRUISE - 1) p.cruise ∧
    Normalized (LEN_WINGSPAN - 1) p.wingspan ∧ Normalized (LEN_DESC - 1) p.desc

instance (p : Plane) : Decidable (PlaneNormalized p) := by
  unfold PlaneNormalized; infer_instance

/-- The words of the spec for `trim_string`: the longest whitespace start of
the string is removed, then the longest whitespace end of what is left. -/
def strip_both_ends (s : List Char) : List Char :=
  (s.dropWhile isspace).rdropWhile isspace

/-- The four lines of a record as the file holds them, the last one without
its line terminator. -/
def record_lines (p : Plane) : List Char :=
  p.name ++ ['\n'] ++ p.cruise ++ ['\n'] ++ p.wingspan ++ ['\n'] ++ p.desc

/-- The words of the spec for the output of `save_plane_data`: the records in
order, a record that is not the last followed by a line terminator and a blank
line, the last one by nothing. -/
def file_layout : List Plane → List Char
  | [] => []
  | [p] => record_lines p
  | p :: q :: rest => record_lines p ++ ['\n', '\n'] ++ file_layout (q :: rest)

/-- A line of text as a file holds it: no line terminator and no NUL in it. -/
def is_line (l : List Char) : Bool := l.all (fun c => c != '\n' && c != '\x00')

/-- The text of one record in a file: its four lines, terminators left out. -/
structure RecordText where
  name_line : List Char
  cruise_line : List Char
  wingspan_line : List Char
  desc_line : List Char
deriving DecidableEq, Inhabited

/-- The characters of a record text, the last line without its terminator. -/
def RecordText.chars (t : RecordText) : List Char :=
  t.name_line ++ ['\n'] ++ t.cruise_line ++ ['\n'] ++ t.wingspan_line ++ ['\n'] ++ t.desc_line

/-- What `read_plane_data` stores for a record text: each line cut to the room
of its field. -/
def RecordText.stored (t : RecordText) : Plane :=
  { name := strncpy_field LEN_NAME t.name_line
    cruise := strncpy_field LEN_CRUISE t.cruise_line
    wingspan := strncpy_field LEN_WINGSPAN t.wingspan_line
    desc := strncpy_field LEN_DESC t.desc_line }

/-- The text that `save_plane_data` writes for a record. -/
def Plane.text (p : Plane) : RecordText :=
  { name_line := p.name, cruise_line := p.cruise, wingspan_line := p.wingspan,
    desc_line := p.desc }

/-- A well-formed record text: four lines, a name line that is not empty, and
every line short enough for the 100-byte buffer of `read_plane_data` (the
terminator of a 99-character description line is read as a blank line). -/
def RecordText.WellFormed (t : RecordText) : Prop :=
  is_line t.name_line = true ∧ is_line t.cruise_line = true ∧
  is_line t.wingspan_line = true ∧ is_line t.desc_line = true ∧
  t.name_line ≠ [] ∧ t.name_line.length ≤ LEN_DESC - 2 ∧
  t.cruise_line.length ≤ LEN_DESC - 2 ∧ t.wingspan_line.length ≤ LEN_DESC - 2 ∧
  t.desc_line.length ≤ LEN_DESC - 1

instance (t : RecordText) : Decidable t.WellFormed := by
  unfold RecordText.WellFormed; infer_instance

/-- A record of a store whose fields fit their caps and hold no line
terminator (and, being C strings, no NUL). -/
def Plane.FitsCaps (p : Plane) : Prop :=
  is_line p.name = true ∧ is_line p.cruise = true ∧
  is_line p.wingspan = true ∧ is_line p.desc = true ∧
  p.name.length ≤ LEN_NAME - 1 ∧ p.cruise.length ≤ LEN_CRUISE - 1 ∧
  p.wingspan.length ≤ LEN_WINGSPAN - 1 ∧ p.desc.length ≤ LEN_DESC - 1

instance (p : Plane) : Decidable p.FitsCaps := by
  unfold Plane.FitsCaps; infer_instance

/-- Blank lines: `b` line terminators in a row. -/
def blank_lines (b : Nat) : List Char := List.replicate b '\n'

/-- Complete records one after the other: each is preceded by its number of
blank lines and each of its four lines is terminated. -/
def framed_records : List (Nat × RecordText) → List Char
  | [] => []
  | (b, t) :: rest => blank_lines b ++ t.chars ++ ['\n'] ++ framed_records rest

/-- A file in the layout of `save_plane_data` with extra blank lines: each
record is preceded by its number of extra blank lines. -/
def file_with_blanks : List (Nat × RecordText) → List Char
  | [] => []
  | [(b, t)] => blank_lines b ++ t.chars
  | (b, t) :: u :: rest =>
    blank_lines b ++ t.chars ++ ['\n', '\n'] ++ file_with_blanks (u :: rest)

/-- The start of a record that the file ends in: its first one, two or three
lines, the last of them with or without its terminator. -/
def cut_record (lines : List (List Char)) (terminated : Bool) : List Char :=
  List.intercalate ['\n'] lines ++ (if terminated then ['\n'] else [])

/-! ## Example inputs -/

/-- A store of one record whose description is empty. -/
def store_empty_desc : List Plane :=
  [⟨"Cessna".toList, "140".toList, "36 ft".toList, []⟩]

/-- A store of two records, the first with an empty name. -/
def store_empty_name : List Plane :=
  [⟨[], "570".toList, "195 ft".toList, "Jet".toList⟩,
   ⟨"Cessna".toList, "140".toList, "36 ft".toList, "Light".toList⟩]

/-- A store of two records with fields to trim. -/
def store_two : List Plane :=
  [⟨" Boeing 747".toList, "570 ".toList, "195 ft".toList, "Jet".toList⟩,
   ⟨"Cessna".toList, "140".toList, "36 ft".toList, "Light".toList⟩]

/-- A store of two records whose descriptions have exactly 99 characters. -/
def store_full_desc : List Plane :=
  [⟨"Boeing 747".toList, "570".toList, "195 ft".toList, List.replicate 99 'j'⟩,
   ⟨"Cessna".toList, "140".toList, "36 ft".toList, List.replicate 99 'c'⟩]

/-- A file whose first line holds a NUL. -/
def file_nul_name : List Char := "Boe\x00ing\n500\n60 ft\nJet\n".toList

/-- A file whose first line has 99 characters before its terminator. -/
def file_long_name : List Char :=
  List.replicate 99 'A' ++ "\n500\n60 ft\nJet\n".toList

/-- The record text with a name line `[Char.ofNat (65 + i)]`: `A`, `B`, ... -/
def text_nr (i : Nat) : RecordText :=
  ⟨[Char.ofNat (65 + i)], "500".toList, "60 ft".toList, "Jet".toList⟩

/-- Fifteen records in the layout of `save_plane_data`, named `A` to `O`. -/
def fifteen_records : List (Nat × RecordText) :=
  (List.range 15).map (fun i => (0, text_nr i))

/-- Two complete records, the second after a blank line. -/
def two_records : List (Nat × RecordText) :=
  [(0, text_nr 0), (1, text_nr 1)]

/-- Two records with the blank lines of the layout (none, one) and extra ones
(two, three). -/
def two_records_extra : List (Nat × Nat × RecordText) :=
  [(0, 2, text_nr 0), (0, 3, text_nr 1)]

/-! ## Facts about trim_string -/

theorem starts_clean_dropWhile (l : List Char) : starts_clean (l.dropWhile isspace) = true := by
  induction l with
  | nil => rfl
  | cons a l ih =>
    by_cases h : isspace a = true
    · rw [List.dropWhile_cons_of_pos h]; exact ih
    · rw [List.dropWhile_cons_of_neg h]; simpa [starts_clean] using h

theorem ends_clean_rdropWhile (l : List Char) : ends_clean (l.rdropWhile isspace) = true := by
  by_cases hl : l.rdropWhile isspace = []
  · rw [hl]; rfl
  · have h := List.rdropWhile_last_not isspace l hl
    simp only [ends_clean, List.getLast?_eq_getLast _ hl, Option.all_some]
    simpa using h

theorem ends_clean_dropWhile (l : List Char) (h : ends_clean l = true) :
    ends_clean (l.dropWhile isspace) = true := by
  induction l with
  | nil => rfl
  | cons a l ih =>
    by_cases ha : isspace a = true
    · rw [List.dropWhile_cons_of_pos ha]
      cases l with
      | nil => rfl
      | cons b l =>
        apply ih
        simpa [ends_clean, List.getLast?_cons_cons] using h
    · rw [List.dropWhile_cons_of_neg ha]; exact h

theorem rdropWhile_of_ends_clean (l : List Char) (h : ends_clean l = true) :
    l.rdropWhile isspace = l := by
  rw [List.rdropWhile_eq_self_iff]
  intro hl
  simp only [ends_clean, List.getLast?_eq_getLast _ hl, Option.all_some] at h
  simpa using h

theorem dropWhile_of_starts_clean (l : List Char) (h : starts_clean l = true) :
    l.dropWhile isspace = l := by
  cases l with
  | nil => rfl
  | cons a l =>
    have ha : ¬ isspace a = true := by simpa [starts_clean] using h
    exact List.dropWhile_cons_of_neg ha

theorem starts_clean_trim (s : List Char) : starts_clean (trim_string s) = true :=
  starts_clean_dropWhile _

theorem ends_clean_trim (s : List Char) : ends_clean (trim_string s) = true :=
  ends_clean_dropWhile _ (ends_clean_rdropWhile s)

theorem trim_of_clean (s : List Char) (h1 : starts_clean s = true) (h2 : ends_clean s = true) :
    trim_string s = s := by
  unfold trim_string
  rw [rdropWhile_of_ends_clean s h2, dropWhile_of_starts_clean s h1]

theorem trim_trim (s : List Char) : trim_string (trim_string s) = trim_string s :=
  trim_of_clean _ (starts_clean_trim s) (ends_clean_trim s)

theorem length_trim_le (s : List Char) : (trim_string s).length ≤ s.length := by
  unfold trim_string
  exact le_trans (List.dropWhile_suffix isspace).length_le (List.rdropWhile_prefix isspace s).length_le

theorem length_strncpy_le (len : Nat) (s : List Char) :
    (strncpy_field len s).length ≤ len - 1 := by
  unfold strncpy_field
  exact List.length_take_le _ _

theorem normalized_normalize (s : List Char) (n : Nat) : Normalized (n - 1) (normalize s n) :=
  ⟨le_trans (length_trim_le _) (length_strncpy_le n s), starts_clean_trim _, ends_clean_trim _⟩

theorem trim_eq_strip_both_ends (s : List Char) : trim_string s = strip_both_ends s := by
  unfold trim_string strip_both_ends
  induction s using List.reverseRecOn with
  | nil => rfl
  | append_singleton l x ih =>
    by_cases hx : isspace x = true
    · rw [List.rdropWhile_concat_pos _ _ _ hx, List.dropWhile_append]
      by_cases hl : (List.dropWhile isspace l).isEmpty = true
      · rw [if_pos hl]
        have hnil : List.dropWhile isspace l = [] := List.isEmpty_iff.mp hl
        have hall : ∀ c ∈ l, isspace c = true := List.dropWhile_eq_nil_iff.mp hnil
        have h1 : List.rdropWhile isspace l = [] := List.rdropWhile_eq_nil_iff.mpr hall
        rw [h1, List.dropWhile_cons_of_pos hx]
        rfl
      · rw [if_neg hl, List.rdropWhile_concat_pos _ _ _ hx]
        exact ih
    · rw [List.rdropWhile_concat_neg _ _ _ hx, List.dropWhile_append]
      by_cases hl : (List.dropWhile isspace l).isEmpty = true
      · rw [if_pos hl, List.dropWhile_cons_of_neg hx]
        exact (List.rdropWhile_concat_neg isspace [] x hx).symm
      · rw [if_neg hl, List.rdropWhile_concat_neg _ _ _ hx]

theorem trim_decompose (s : List Char) :
    ∃ lead trail : List Char, s = lead ++ trim_string s ++ trail ∧
      (∀ c ∈ lead, isspace c = true) ∧ (∀ c ∈ trail, isspace c = true) := by
  refine ⟨(s.rdropWhile isspace).takeWhile isspace, s.rtakeWhile isspace, ?_, ?_, ?_⟩
  · unfold trim_string
    rw [List.takeWhile_append_dropWhile]
    simp only [List.rdropWhile, List.rtakeWhile]
    rw [← List.reverse_append, List.takeWhile_append_dropWhile, List.reverse_reverse]
  · intro c hc
    exact List.mem_takeWhile_imp hc
  · intro c hc
    exact List.mem_rtakeWhile_imp hc

theorem trim_of_all_space (s : List Char) (h : ∀ c ∈ s, isspace c = true) :
    trim_string s = [] := by
  unfold trim_string
  rw [List.rdropWhile_eq_nil_iff.mpr h]
  rfl

theorem normalize_normalize (s : List Char) (n : Nat) :
    normalize (normalize s n) n = normalize s n := by
  have hN := normalized_normalize s n
  have htake : strncpy_field n (normalize s n) = normalize s n := by
    unfold strncpy_field
    exact List.take_of_length_le hN.1
  show trim_string (strncpy_field n (normalize s n)) = normalize s n
  rw [htake]
  exact trim_trim _

/-! ## The layout written by save_plane_data -/

theorem save_rounds_eq_layout (planes front : List Plane) :
    ((List.range planes.length).map
        (fun i => write_plane (front ++ planes) (front.length + planes.length)
          (front.length + i))).flatten = file_layout planes := by
  induction planes generalizing front with
  | nil => rfl
  | cons p rest ih =>
    rw [List.length_cons, List.range_succ_eq_map, List.map_cons, List.flatten_cons, List.map_map]
    have hget : (front ++ p :: rest).getD (front.length + 0) default = p := by
      rw [Nat.add_zero, List.getD_eq_getElem?_getD, List.getElem?_append_right (le_refl _)]
      simp
    have htail := ih (front ++ [p])
    have hfun : ((fun i => write_plane (front ++ p :: rest) (front.length + (rest.length + 1))
          (front.length + i)) ∘ Nat.succ)
        = (fun i => write_plane (front ++ [p] ++ rest) ((front ++ [p]).length + rest.length)
          ((front ++ [p]).length + i)) := by
      funext i
      simp only [Function.comp, List.length_append, List.length_singleton, List.append_assoc,
        List.singleton_append, Nat.succ_eq_add_one]
      congr 1 <;> omega
    rw [hfun, htail]
    cases rest with
    | nil =>
      simp [write_plane, hget, file_layout, record_lines]
    | cons q rest2 =>
      have hne : ¬ (front.length + 0 = front.length + ((q :: rest2).length + 1) - 1) := by
        simp only [List.length_cons]; omega
      simp only [write_plane, hget, if_neg hne, file_layout, record_lines]
      simp

theorem save_eq_layout (planes : List Plane) :
    save_plane_data planes planes.length = file_layout planes := by
  have h := save_rounds_eq_layout planes []
  simpa [save_plane_data] using h

theorem layout_ends_with_last (planes : List Plane) (last : Plane)
    (h : planes.getLast? = some last) :
    ∃ before : List Char, file_layout planes = before ++ record_lines last := by
  induction planes with
  | nil => simp at h
  | cons p rest ih =>
    cases rest with
    | nil =>
      simp only [List.getLast?_singleton, Option.some.injEq] at h
      exact ⟨[], by rw [← h]; rfl⟩
    | cons q rest2 =>
      rw [List.getLast?_cons_cons] at h
      obtain ⟨before, hb⟩ := ih h
      exact ⟨record_lines p ++ ['\n', '\n'] ++ before, by
        simp only [file_layout, hb, List.append_assoc]⟩

/-! ## Facts about fgets and the line buffer -/

theorem fgets_chars_line (l rest : List Char) (room : Nat)
    (hl : ∀ c ∈ l, c ≠ '\n') (hroom : l.length < room) :
    fgets_chars room (l ++ '\n' :: rest) = (l ++ ['\n'], rest) := by
  induction l generalizing room with
  | nil =>
    cases room with
    | zero => simp at hroom
    | succ r => simp [fgets_chars]
  | cons a l ih =>
    cases room with
    | zero => simp at hroom
    | succ r =>
      have ha : a ≠ '\n' := hl a (List.mem_cons_self _ _)
      have h := ih r (fun c hc => hl c (List.mem_cons_of_mem _ hc))
        (by simpa using hroom)
      simp [fgets_chars, ha, h]

theorem fgets_chars_full (l rest : List Char) (hl : ∀ c ∈ l, c ≠ '\n') :
    fgets_chars l.length (l ++ rest) = (l, rest) := by
  induction l with
  | nil => simp [fgets_chars]
  | cons a l ih =>
    have ha : a ≠ '\n' := hl a (List.mem_cons_self _ _)
    have h := ih (fun c hc => hl c (List.mem_cons_of_mem _ hc))
    simp [fgets_chars, ha, h]

theorem fgets_chars_eof (l : List Char) (room : Nat)
    (hl : ∀ c ∈ l, c ≠ '\n') (hroom : l.length ≤ room) :
    fgets_chars room l = (l, []) := by
  induction l generalizing room with
  | nil => cases room <;> simp [fgets_chars]
  | cons a l ih =>
    cases room with
    | zero => simp at hroom
    | succ r =>
      have ha : a ≠ '\n' := hl a (List.mem_cons_self _ _)
      have h := ih r (fun c hc => hl c (List.mem_cons_of_mem _ hc))
        (by simpa using hroom)
      simp [fgets_chars, ha, h]

theorem length_fgets_chars_le (room : Nat) (fp : List Char) :
    (fgets_chars room fp).1.length ≤ room := by
  induction room generalizing fp with
  | zero => simp [fgets_chars]
  | succ r ih =>
    cases fp with
    | nil => simp [fgets_chars]
    | cons c fp =>
      by_cases hc : c = '\n'
      · simp [fgets_chars, hc]
      · simpa [fgets_chars, hc] using ih fp

theorem is_line_no_newline {l : List Char} (h : is_line l = true) : ∀ c ∈ l, c ≠ '\n' := by
  intro c hc
  have := List.all_eq_true.mp h c hc
  simp at this
  exact this.1

theorem is_line_no_nul {l : List Char} (h : is_line l = true) : ∀ c ∈ l, c ≠ '\x00' := by
  intro c hc
  have := List.all_eq_true.mp h c hc
  simp at this
  exact this.2

theorem strip_newline_line (l rest : List Char) (h : is_line l = true) :
    strip_newline (l ++ '\n' :: rest) = l := by
  unfold strip_newline c_str
  rw [List.takeWhile_takeWhile]
  have hall : ∀ c ∈ l, (decide ((c != '\n') = true ∧ (c != '\x00') = true)) = true := by
    intro c hc
    simp [is_line_no_newline h c hc, is_line_no_nul h c hc]
  rw [List.takeWhile_append_of_pos hall]
  simp

theorem strip_newline_eof (l : List Char) (h : is_line l = true) :
    strip_newline l = l := by
  unfold strip_newline c_str
  rw [List.takeWhile_takeWhile]
  have hall : ∀ c ∈ l, (decide ((c != '\n') = true ∧ (c != '\x00') = true)) = true := by
    intro c hc
    simp [is_line_no_newline h c hc, is_line_no_nul h c hc]
  exact List.takeWhile_eq_self_iff.mpr hall

theorem length_strip_newline_le (buffer : List Char) :
    (strip_newline buffer).length ≤ buffer.length := by
  unfold strip_newline c_str
  exact le_trans (List.takeWhile_prefix _).length_le (List.takeWhile_prefix _).length_le

theorem fgets_nil (size : Nat) : fgets size [] = none := rfl

theorem fgets_line (l rest : List Char) (h : is_line l = true)
    (hlen : l.length ≤ LEN_DESC - 2) :
    fgets LEN_DESC (l ++ '\n' :: rest) = some (l ++ ['\n'], rest) := by
  have h1 := fgets_chars_line l rest (LEN_DESC - 1) (is_line_no_newline h)
    (by simp only [LEN_DESC] at hlen ⊢; omega)
  cases l with
  | nil => simpa [fgets] using h1
  | cons a l => simpa [fgets] using h1

theorem fgets_full (l rest : List Char) (h : is_line l = true)
    (hlen : l.length = LEN_DESC - 1) :
    fgets LEN_DESC (l ++ rest) = some (l, rest) := by
  have h1 := fgets_chars_full l rest (is_line_no_newline h)
  rw [hlen] at h1
  cases l with
  | nil => simp at hlen
  | cons a l => simpa [fgets] using h1

theorem fgets_eof (l : List Char) (h : is_line l = true) (hne : l ≠ [])
    (hlen : l.length ≤ LEN_DESC - 1) :
    fgets LEN_DESC l = some (l, []) := by
  have h1 := fgets_chars_eof l (LEN_DESC - 1) (is_line_no_newline h) hlen
  cases l with
  | nil => exact absurd rfl hne
  | cons a l => simpa [fgets] using h1

/-! ## Facts about read_plane_data -/

theorem read_name_line_line (fuel : Nat) (l rest : List Char) (h : is_line l = true)
    (hne : l ≠ []) (hlen : l.length ≤ LEN_DESC - 2) :
    read_name_line (fuel + 1) (l ++ '\n' :: rest) = some (l, rest) := by
  have hpos : l.length ≠ 0 := fun h0 => hne (List.length_eq_zero.mp h0)
  simp only [read_name_line, fgets_line l rest h hlen, strip_newline_line l [] h, if_neg hpos]

theorem read_name_line_eof (fuel : Nat) (l : List Char) (h : is_line l = true)
    (hne : l ≠ []) (hlen : l.length ≤ LEN_DESC - 1) :
    read_name_line (fuel + 1) l = some (l, []) := by
  have hpos : l.length ≠ 0 := fun h0 => hne (List.length_eq_zero.mp h0)
  simp only [read_name_line, fgets_eof l h hne hlen, strip_newline_eof l h, if_neg hpos]

theorem read_name_line_blank (fuel : Nat) (fp : List Char) :
    read_name_line (fuel + 1) ('\n' :: fp) = read_name_line fuel fp := by
  have h1 : fgets LEN_DESC ('\n' :: fp) = some (['\n'], fp) := by
    simp [fgets, fgets_chars]
  have h2 : strip_newline ['\n'] = [] := by decide
  simp only [read_name_line, h1, h2, List.length_nil, if_true]

/-- More fuel than the stream has characters is never used up: the result of
the blank-line loop is the same for every such fuel. -/
theorem read_name_line_fuel (fuel fuel2 : Nat) (fp : List Char)
    (h1 : fp.length < fuel) (h2 : fp.length < fuel2) :
    read_name_line fuel fp = read_name_line fuel2 fp := by
  induction fuel generalizing fuel2 fp with
  | zero => omega
  | succ f ih =>
    cases fuel2 with
    | zero => omega
    | succ g =>
      cases fp with
      | nil => simp [read_name_line, fgets]
      | cons c fp =>
        simp only [read_name_line, fgets]
        have hlen : (fgets_chars (LEN_DESC - 1) (c :: fp)).2.length < (c :: fp).length := by
          show (fgets_chars (98 + 1) (c :: fp)).2.length < (c :: fp).length
          have hmono : ∀ (room : Nat) (s : List Char), (fgets_chars room s).2.length ≤ s.length := by
            intro room
            induction room with
            | zero => intro s; simp [fgets_chars]
            | succ r ihr =>
              intro s
              cases s with
              | nil => simp [fgets_chars]
              | cons d s =>
                by_cases hd : d = '\n'
                · simp [fgets_chars, hd]
                · have := ihr s
                  simp only [fgets_chars, hd, if_false, List.length_cons]
                  omega
          by_cases hc : c = '\n'
          · simp [fgets_chars, hc]
          · have := hmono 98 fp
            simp only [fgets_chars, hc, if_false, List.length_cons]
            omega
        split
        · exact ih g _ (by simp only [List.length_cons] at h1 hlen; omega)
            (by simp only [List.length_cons] at h2 hlen; omega)
        · rfl

theorem read_plane_data_nil : read_plane_data [] = none := rfl

theorem read_plane_data_blank (fp : List Char) :
    read_plane_data ('\n' :: fp) = read_plane_data fp := by
  unfold read_plane_data
  rw [List.length_cons, read_name_line_blank]

theorem read_plane_data_blank_lines (b : Nat) (fp : List Char) :
    read_plane_data (blank_lines b ++ fp) = read_plane_data fp := by
  induction b with
  | zero => rfl
  | succ b ih =>
    show read_plane_data (List.replicate (b + 1) '\n' ++ fp) = read_plane_data fp
    rw [List.replicate_succ, List.cons_append, read_plane_data_blank]
    exact ih

theorem RecordText.chars_append (t : RecordText) (tail : List Char) :
    t.chars ++ tail = t.name_line ++ '\n' :: (t.cruise_line ++ '\n' ::
      (t.wingspan_line ++ '\n' :: (t.desc_line ++ tail))) := by
  simp [RecordText.chars]

theorem read_plane_data_record (t : RecordText) (h : t.WellFormed) (rest : List Char) :
    read_plane_data (t.chars ++ '\n' :: rest) =
      some (t.stored, if t.desc_line.length = LEN_DESC - 1 then '\n' :: rest else rest) := by
  obtain ⟨h1, h2, h3, h4, hne, l1, l2, l3, l4⟩ := h
  rw [RecordText.chars_append]
  unfold read_plane_data
  rw [read_name_line_line _ _ _ h1 hne l1]
  simp only [fgets_line _ _ h2 l2, fgets_line _ _ h3 l3]
  by_cases hfull : t.desc_line.length = LEN_DESC - 1
  · simp only [fgets_full _ ('\n' :: rest) h4 hfull, if_pos hfull, strip_newline_line _ [] h2,
      strip_newline_line _ [] h3, strip_newline_eof _ h4, RecordText.stored]
  · have l4b : t.desc_line.length ≤ LEN_DESC - 2 := by
      simp only [LEN_DESC] at l4 hfull ⊢; omega
    simp only [fgets_line _ rest h4 l4b, if_neg hfull, strip_newline_line _ [] h2,
      strip_newline_line _ [] h3, strip_newline_line _ [] h4, RecordText.stored]

theorem read_plane_data_last (t : RecordText) (h : t.WellFormed) (hd : t.desc_line ≠ []) :
    read_plane_data t.chars = some (t.stored, []) := by
  obtain ⟨h1, h2, h3, h4, hne, l1, l2, l3, l4⟩ := h
  have e := RecordText.chars_append t []
  rw [List.append_nil, List.append_nil] at e
  rw [e]
  unfold read_plane_data
  rw [read_name_line_line _ _ _ h1 hne l1]
  simp only [fgets_line _ _ h2 l2, fgets_line _ _ h3 l3]
  simp only [fgets_eof _ h4 hd l4, strip_newline_line _ [] h2,
      strip_newline_line _ [] h3, strip_newline_eof _ h4, RecordText.stored]

theorem read_plane_data_after_name (l fp : List Char) (h : is_line l = true)
    (hne : l ≠ []) (hlen : l.length ≤ LEN_DESC - 2)
    (hnext : fgets LEN_DESC fp = none ∨
      ∃ b2 fp2, fgets LEN_DESC fp = some (b2, fp2) ∧ (fgets LEN_DESC fp2 = none ∨
        ∃ b3 fp3, fgets LEN_DESC fp2 = some (b3, fp3) ∧ fgets LEN_DESC fp3 = none)) :
    read_plane_data (l ++ '\n' :: fp) = none := by
  unfold read_plane_data
  rw [read_name_line_line _ _ _ h hne hlen]
  rcases hnext with h2 | ⟨b2, fp2, h2, h3 | ⟨b3, fp3, h3, h4⟩⟩
  · simp only [h2]
  · simp only [h2, h3]
  · simp only [h2, h3, h4]

theorem fgets_eof_cases (l : List Char) (h : is_line l = true) (hlen : l.length ≤ LEN_DESC - 2) :
    fgets LEN_DESC l = none ∨
      ∃ b fp, fgets LEN_DESC l = some (b, fp) ∧ fgets LEN_DESC fp = none := by
  by_cases hl : l = []
  · left; rw [hl]; rfl
  · right
    exact ⟨l, [], fgets_eof l h hl (by simp only [LEN_DESC] at hlen ⊢; omega), rfl⟩

theorem read_plane_data_cut (lines : List (List Char)) (terminated : Bool)
    (hn : 1 ≤ lines.length ∧ lines.length ≤ 3)
    (hl : ∀ l ∈ lines, is_line l = true ∧ l.length ≤ LEN_DESC - 2)
    (hne : ∀ l, lines.head? = some l → l ≠ []) :
    read_plane_data (cut_record lines terminated) = none := by
  match lines, hn, hl, hne with
  | [], hn, _, _ => simp at hn
  | [l1], _, hl, hne =>
    have h1 := hl l1 (by simp)
    have hne1 := hne l1 rfl
    cases terminated with
    | true =>
      have e : cut_record [l1] true = l1 ++ '\n' :: [] := by
        simp [cut_record, List.intercalate]
      rw [e]
      exact read_plane_data_after_name l1 [] h1.1 hne1 h1.2 (Or.inl rfl)
    | false =>
      have e : cut_record [l1] false = l1 := by
        simp [cut_record, List.intercalate]
      rw [e]
      unfold read_plane_data
      rw [read_name_line_eof _ _ h1.1 hne1 (by have := h1.2; simp only [LEN_DESC] at this ⊢; omega)]
      rfl
  | [l1, l2], _, hl, hne =>
    have h1 := hl l1 (by simp)
    have h2 := hl l2 (by simp)
    have hne1 := hne l1 rfl
    cases terminated with
    | true =>
      have e : cut_record [l1, l2] true = l1 ++ '\n' :: (l2 ++ '\n' :: []) := by
        simp [cut_record, List.intercalate]
      rw [e]
      exact read_plane_data_after_name l1 _ h1.1 hne1 h1.2
        (Or.inr ⟨_, _, fgets_line l2 [] h2.1 h2.2, Or.inl rfl⟩)
    | false =>
      have e : cut_record [l1, l2] false = l1 ++ '\n' :: l2 := by
        simp [cut_record, List.intercalate]
      rw [e]
      apply read_plane_data_after_name l1 _ h1.1 hne1 h1.2
      rcases fgets_eof_cases l2 h2.1 h2.2 with h | ⟨b, fp, hb, hfp⟩
      · exact Or.inl h
      · exact Or.inr ⟨b, fp, hb, Or.inl hfp⟩
  | [l1, l2, l3], _, hl, hne =>
    have h1 := hl l1 (by simp)
    have h2 := hl l2 (by simp)
    have h3 := hl l3 (by simp)
    have hne1 := hne l1 rfl
    cases terminated with
    | true =>
      have e : cut_record [l1, l2, l3] true
          = l1 ++ '\n' :: (l2 ++ '\n' :: (l3 ++ '\n' :: [])) := by
        simp [cut_record, List.intercalate]
      rw [e]
      exact read_plane_data_after_name l1 _ h1.1 hne1 h1.2
        (Or.inr ⟨_, _, fgets_line l2 _ h2.1 h2.2,
          Or.inr ⟨_, _, fgets_line l3 [] h3.1 h3.2, rfl⟩⟩)
    | false =>
      have e : cut_record [l1, l2, l3] false = l1 ++ '\n' :: (l2 ++ '\n' :: l3) := by
        simp [cut_record, List.intercalate]
      rw [e]
      apply read_plane_data_after_name l1 _ h1.1 hne1 h1.2
      refine Or.inr ⟨_, _, fgets_line l2 _ h2.1 h2.2, ?_⟩
      rcases fgets_eof_cases l3 h3.1 h3.2 with h | ⟨b, fp, hb, hfp⟩
      · exact Or.inl h
      · exact Or.inr ⟨b, fp, hb, hfp⟩
  | _ :: _ :: _ :: _ :: _, hn, _, _ => simp at hn

/-! ## Facts about the loop of load_plane_data -/

theorem load_loop_nil (k : Nat) : load_loop k [] = [] := by
  cases k <;> rfl

theorem load_loop_blank (k : Nat) (fp : List Char) :
    load_loop k ('\n' :: fp) = load_loop k fp := by
  cases k with
  | zero => rfl
  | succ k => simp only [load_loop, read_plane_data_blank]

theorem load_loop_blank_lines (k b : Nat) (fp : List Char) :
    load_loop k (blank_lines b ++ fp) = load_loop k fp := by
  induction b with
  | zero => rfl
  | succ b ih =>
    show load_loop k (List.replicate (b + 1) '\n' ++ fp) = load_loop k fp
    rw [List.replicate_succ, List.cons_append, load_loop_blank]
    exact ih

theorem load_loop_record (k : Nat) (t : RecordText) (h : t.WellFormed) (rest : List Char) :
    load_loop (k + 1) (t.chars ++ '\n' :: rest) = t.stored :: load_loop k rest := by
  simp only [load_loop, read_plane_data_record t h rest]
  split
  · rw [load_loop_blank]
  · rfl

theorem load_loop_last (k : Nat) (t : RecordText) (h : t.WellFormed)
    (hd : t.desc_line ≠ []) :
    load_loop (k + 1) t.chars = [t.stored] := by
  simp only [load_loop, read_plane_data_last t h hd, load_loop_nil]

theorem load_loop_cut (k : Nat) (lines : List (List Char)) (terminated : Bool)
    (hn : 1 ≤ lines.length ∧ lines.length ≤ 3)
    (hl : ∀ l ∈ lines, is_line l = true ∧ l.length ≤ LEN_DESC - 2)
    (hne : ∀ l, lines.head? = some l → l ≠ []) :
    load_loop k (cut_record lines terminated) = [] := by
  cases k with
  | zero => rfl
  | succ k => simp only [load_loop, read_plane_data_cut lines terminated hn hl hne]

theorem load_loop_framed (recs : List (Nat × RecordText))
    (hwf : ∀ r ∈ recs, r.2.WellFormed) (k : Nat) (tail : List Char) :
    load_loop k (framed_records recs ++ tail) =
      (recs.map (fun r => r.2.stored)).take k ++ load_loop (k - recs.length) tail := by
  induction recs generalizing k with
  | nil => simp [framed_records]
  | cons r rest ih =>
    obtain ⟨b, t⟩ := r
    cases k with
    | zero => simp [load_loop]
    | succ k =>
      have ht : t.WellFormed := hwf (b, t) (List.mem_cons_self _ _)
      have hrest : ∀ r ∈ rest, r.2.WellFormed := fun r hr => hwf r (List.mem_cons_of_mem _ hr)
      have e : framed_records ((b, t) :: rest) ++ tail
          = blank_lines b ++ (t.chars ++ '\n' :: (framed_records rest ++ tail)) := by
        simp [framed_records]
      rw [e, load_loop_blank_lines, load_loop_record k t ht, ih hrest]
      simp

theorem load_loop_file (recs : List (Nat × RecordText))
    (hwf : ∀ r ∈ recs, r.2.WellFormed) (k : Nat)
    (hlast : k < recs.length ∨ ∀ r, recs.getLast? = some r → r.2.desc_line ≠ []) :
    load_loop k (file_with_blanks recs) = (recs.map (fun r => r.2.stored)).take k := by
  induction recs generalizing k with
  | nil => simp [file_with_blanks, load_loop_nil]
  | cons r rest ih =>
    obtain ⟨b, t⟩ := r
    have ht : t.WellFormed := hwf (b, t) (List.mem_cons_self _ _)
    have hrest : ∀ r ∈ rest, r.2.WellFormed := fun r hr => hwf r (List.mem_cons_of_mem _ hr)
    cases k with
    | zero => simp [load_loop]
    | succ k =>
      cases rest with
      | nil =>
        have hd : t.desc_line ≠ [] := by
          rcases hlast with h | h
          · simp at h
          · exact h (b, t) rfl
        simp only [file_with_blanks, load_loop_blank_lines, load_loop_last k t ht hd]
        simp
      | cons u rest2 =>
        have e : file_with_blanks ((b, t) :: u :: rest2)
            = blank_lines b ++ (t.chars ++ '\n' :: ('\n' :: file_with_blanks (u :: rest2))) := by
          simp [file_with_blanks]
        rw [e, load_loop_blank_lines, load_loop_record k t ht, load_loop_blank, ih hrest]
        · simp
        · rcases hlast with h | h
          · left; simp only [List.length_cons] at h ⊢; omega
          · right; intro r hr; apply h r
            rw [List.getLast?_cons_cons]; exact hr

theorem load_loop_file_blanks (recs : List (Nat × RecordText))
    (hwf : ∀ r ∈ recs, r.2.WellFormed) (k : Nat) :
    load_loop k (file_with_blanks recs)
      = load_loop k (file_with_blanks (recs.map (fun r => (0, r.2)))) := by
  induction recs generalizing k with
  | nil => rfl
  | cons r rest ih =>
    obtain ⟨b, t⟩ := r
    have ht : t.WellFormed := hwf (b, t) (List.mem_cons_self _ _)
    have hrest : ∀ r ∈ rest, r.2.WellFormed := fun r hr => hwf r (List.mem_cons_of_mem _ hr)
    cases rest with
    | nil =>
      simp only [List.map_cons, List.map_nil, file_with_blanks, load_loop_blank_lines]
    | cons u rest2 =>
      cases k with
      | zero => rfl
      | succ k =>
        have e : ∀ c : Nat, file_with_blanks ((c, t) :: u :: rest2)
            = blank_lines c ++ (t.chars ++ '\n' :: ('\n' :: file_with_blanks (u :: rest2))) := by
          intro c; simp [file_with_blanks]
        have e2 : file_with_blanks (List.map (fun r => (0, r.2)) ((b, t) :: u :: rest2))
            = blank_lines 0 ++ (t.chars ++ '\n' :: ('\n' ::
                file_with_blanks (List.map (fun r => (0, r.2)) (u :: rest2)))) := by
          simp [file_with_blanks]
        rw [e, e2, load_loop_blank_lines, load_loop_blank_lines, load_loop_record k t ht,
          load_loop_record k t ht, load_loop_blank, load_loop_blank, ih hrest]

/-! ## Facts shared by the round-trip claims -/

theorem file_with_blanks_text (planes : List Plane) :
    file_with_blanks (planes.map (fun p => (0, p.text))) = file_layout planes := by
  induction planes with
  | nil => rfl
  | cons p rest ih =>
    cases rest with
    | nil => simp [file_with_blanks, file_layout, blank_lines, record_lines, RecordText.chars,
        Plane.text]
    | cons q rest2 =>
      simp only [List.map_cons, file_with_blanks, file_layout] at ih ⊢
      rw [ih]
      simp [blank_lines, record_lines, RecordText.chars, Plane.text]

theorem stored_text (p : Plane) (h : p.FitsCaps) : p.text.stored = p := by
  obtain ⟨_, _, _, _, l1, l2, l3, l4⟩ := h
  cases p
  simp only [Plane.text, RecordText.stored, strncpy_field, Plane.mk.injEq]
  exact ⟨List.take_of_length_le l1, List.take_of_length_le l2, List.take_of_length_le l3,
    List.take_of_length_le l4⟩

theorem wellFormed_text (p : Plane) (h : p.FitsCaps) (hne : p.name ≠ []) :
    p.text.WellFormed := by
  obtain ⟨h1, h2, h3, h4, l1, l2, l3, l4⟩ := h
  refine ⟨h1, h2, h3, h4, hne, ?_, ?_, ?_, l4⟩ <;>
    simp only [Plane.text, LEN_NAME, LEN_CRUISE, LEN_WINGSPAN, LEN_DESC] at * <;> omega

theorem load_save (planes : List Plane) (hn : planes.length ≤ MAX_PLANES)
    (hfit : ∀ p ∈ planes, p.FitsCaps) (hname : ∀ p ∈ planes, p.name ≠ [])
    (hdesc : ∀ p, planes.getLast? = some p → p.desc ≠ []) :
    load_loop MAX_PLANES (save_plane_data planes planes.length) = planes := by
  rw [save_eq_layout, ← file_with_blanks_text, load_loop_file]
  · rw [List.map_map]
    have hid : ∀ p ∈ planes, ((fun r : Nat × RecordText => r.2.stored) ∘
        (fun p : Plane => (0, p.text))) p = p := fun p hp => stored_text p (hfit p hp)
    rw [List.map_congr_left hid, List.map_id']
    exact List.take_of_length_le (by simpa using hn)
  · intro r hr
    obtain ⟨p, hp, rfl⟩ := List.mem_map.mp hr
    exact wellFormed_text p (hfit p hp) (hname p hp)
  · right
    intro r hr
    rw [List.getLast?_map] at hr
    cases hl : planes.getLast? with
    | none => rw [hl] at hr; simp at hr
    | some p =>
      rw [hl] at hr
      simp only [Option.map_some', Option.some.injEq] at hr
      rw [← hr]
      exact hdesc p hl

theorem load_plane_data_save (planes : List Plane) (hn : planes.length ≤ MAX_PLANES)
    (hfit : ∀ p ∈ planes, p.FitsCaps) (hname : ∀ p ∈ planes, p.name ≠ [])
    (hdesc : ∀ p, planes.getLast? = some p → p.desc ≠ []) :
    load_plane_data (some (save_plane_data planes planes.length))
      = (planes.length, planes.map trim_plane) := by
  simp only [load_plane_data, load_save planes hn hfit hname hdesc]

/-! ## Facts about the stored form of fields -/

theorem read_plane_data_lengths (fp fp1 : List Char) (p : Plane)
    (h : read_plane_data fp = some (p, fp1)) :
    p.name.length ≤ LEN_NAME - 1 ∧ p.cruise.length ≤ LEN_CRUISE - 1 ∧
      p.wingspan.length ≤ LEN_WINGSPAN - 1 ∧ p.desc.length ≤ LEN_DESC - 1 := by
  unfold read_plane_data at h
  split at h
  · exact absurd h (by simp)
  · split at h
    · exact absurd h (by simp)
    · split at h
      · exact absurd h (by simp)
      · split at h
        · exact absurd h (by simp)
        · simp only [Option.some.injEq, Prod.mk.injEq] at h
          rw [← h.1]
          exact ⟨length_strncpy_le _ _, length_strncpy_le _ _, length_strncpy_le _ _,
            length_strncpy_le _ _⟩

theorem load_loop_lengths (k : Nat) (fp : List Char) :
    ∀ p ∈ load_loop k fp,
      p.name.length ≤ LEN_NAME - 1 ∧ p.cruise.length ≤ LEN_CRUISE - 1 ∧
        p.wingspan.length ≤ LEN_WINGSPAN - 1 ∧ p.desc.length ≤ LEN_DESC - 1 := by
  induction k generalizing fp with
  | zero => intro p hp; simp [load_loop] at hp
  | succ k ih =>
    intro p hp
    unfold load_loop at hp
    split at hp
    next q fp1 hq =>
      rcases List.mem_cons.mp hp with rfl | hp
      · exact read_plane_data_lengths fp fp1 p hq
      · exact ih fp1 p hp
    next => simp at hp

theorem normalized_trim (cap : Nat) (s : List Char) (h : s.length ≤ cap) :
    Normalized cap (trim_string s) :=
  ⟨le_trans (length_trim_le s) h, starts_clean_trim s, ends_clean_trim s⟩

theorem load_plane_data_normalized (file : Option (List Char)) :
    ∀ p ∈ (load_plane_data file).2, PlaneNormalized p := by
  intro p hp
  cases file with
  | none => simp [load_plane_data] at hp
  | some fp =>
    simp only [load_plane_data] at hp
    obtain ⟨q, hq, rfl⟩ := List.mem_map.mp hp
    obtain ⟨l1, l2, l3, l4⟩ := load_loop_lengths MAX_PLANES fp q hq
    exact ⟨normalized_trim _ _ l1, normalized_trim _ _ l2, normalized_trim _ _ l3,
      normalized_trim _ _ l4⟩

theorem edit_field_normalized (len : Nat) (old : List Char) (a : Answer)
    (h : Normalized (len - 1) old) : Normalized (len - 1) (edit_field len old a) := by
  unfold edit_field ask_edit_input get_string_input
  by_cases hr : a.response = 'Y'
  · rw [if_pos hr]
    cases hs : a.stdin with
    | nil => simpa [fgets] using h
    | cons c rest =>
      simp only [fgets]
      have hlen : (trim_string (strip_newline
          (fgets_chars (len - 1) (c :: rest)).1)).length ≤ len - 1 :=
        le_trans (length_trim_le _)
          (le_trans (length_strip_newline_le _) (length_fgets_chars_le _ _))
      have hcopy : strncpy_field len (trim_string (strip_newline
          (fgets_chars (len - 1) (c :: rest)).1))
          = trim_string (strip_newline (fgets_chars (len - 1) (c :: rest)).1) := by
        unfold strncpy_field
        exact List.take_of_length_le hlen
      rw [hcopy]
      exact ⟨hlen, starts_clean_trim _, ends_clean_trim _⟩
  · rw [if_neg hr]
    exact h

theorem edit_plane_normalized (planes : List Plane) (choice : Nat)
    (a_name a_cruise a_wingspan a_desc : Answer)
    (hinv : ∀ p ∈ planes, PlaneNormalized p) (h1 : 1 ≤ choice) (h2 : choice ≤ planes.length) :
    ∀ p ∈ edit_plane planes choice a_name a_cruise a_wingspan a_desc, PlaneNormalized p := by
  intro p hp
  unfold edit_plane at hp
  rcases List.mem_or_eq_of_mem_set hp with hp | rfl
  · exact hinv p hp
  · have hlt : choice - 1 < planes.length := by omega
    have hmem : planes.getD (choice - 1) default ∈ planes := by
      rw [List.getD_eq_getElem?_getD, List.getElem?_eq_getElem hlt]
      exact List.getElem_mem hlt
    obtain ⟨n1, n2, n3, n4⟩ := hinv _ hmem
    exact ⟨edit_field_normalized _ _ _ n1, edit_field_normalized _ _ _ n2,
      edit_field_normalized _ _ _ n3, edit_field_normalized _ _ _ n4⟩

/-! ## The claims -/

/-- C1, as stated, fails. A store whose only record has an empty description
is written as three terminated lines, and `load_plane_data` then finds no
complete record; a record with an empty name is written with a blank first
line, which the reader skips, so its other fields are read one field early. -/
theorem C1_roundtrip_counterexample :
    ((1 ≤ store_empty_desc.length ∧ store_empty_desc.length ≤ MAX_PLANES) ∧
      (∀ p ∈ store_empty_desc, p.FitsCaps) ∧
      load_plane_data (some (save_plane_data store_empty_desc store_empty_desc.length))
        = (0, []) ∧
      load_plane_data (some (save_plane_data store_empty_desc store_empty_desc.length))
        ≠ (store_empty_desc.length, store_empty_desc.map trim_plane)) ∧
    ((1 ≤ store_empty_name.length ∧ store_empty_name.length ≤ MAX_PLANES) ∧
      (∀ p ∈ store_empty_name, p.FitsCaps) ∧
      load_plane_data (some (save_plane_data store_empty_name store_empty_name.length))
        = (2, [⟨"570".toList, "195 ft".toList, "Jet".toList, []⟩,
               ⟨"Cessna".toList, "140".toList, "36 ft".toList, "Light".toList⟩]) ∧
      load_plane_data (some (save_plane_data store_empty_name store_empty_name.length))
        ≠ (store_empty_name.length, store_empty_name.map trim_plane)) := by
  decide

/-- C1, amended. For every store of 1 to 10 records whose fields fit their
caps and hold no line terminator, whose names are all non-empty and whose last
description is non-empty, `load_plane_data` applied to the output of
`save_plane_data` returns the same number of records, in the same order, each
field the `trim_string` form of the original field. -/
theorem C1_roundtrip_amended (planes : List Plane)
    (hn : 1 ≤ planes.length ∧ planes.length ≤ MAX_PLANES)
    (hfit : ∀ p ∈ planes, p.FitsCaps) (hname : ∀ p ∈ planes, p.name ≠ [])
    (hdesc : ∀ p, planes.getLast? = some p → p.desc ≠ []) :
    load_plane_data (some (save_plane_data planes planes.length))
      = (planes.length, planes.map trim_plane) :=
  load_plane_data_save planes hn.2 hfit hname hdesc

theorem C1_roundtrip_amended_witness :
    load_plane_data (some (save_plane_data store_two store_two.length))
      = (2, [⟨"Boeing 747".toList, "570".toList, "195 ft".toList, "Jet".toList⟩,
             ⟨"Cessna".toList, "140".toList, "36 ft".toList, "Light".toList⟩]) :=
  C1_roundtrip_amended store_two (by decide) (by decide) (by decide) (by decide)

/-- C2. The output of `save_plane_data` for a store of `n >= 1` records is, for
each record in index order, name, `'\n'`, cruise, `'\n'`, wingspan, `'\n'`,
description, followed by `"\n\n"` when the record is not the last and by
nothing when it is; so the output ends with the four lines of the last record,
its description last, and for two records there is exactly one blank line
between them. -/
theorem C2_save_layout (planes : List Plane) (_hn : 1 ≤ planes.length) :
    save_plane_data planes planes.length = file_layout planes ∧
    (∀ last, planes.getLast? = some last →
      ∃ before : List Char, save_plane_data planes planes.length
        = before ++ (last.name ++ ['\n'] ++ last.cruise ++ ['\n'] ++ last.wingspan ++ ['\n']
            ++ last.desc)) ∧
    (∀ p q, planes = [p, q] →
      save_plane_data planes planes.length
        = (p.name ++ ['\n'] ++ p.cruise ++ ['\n'] ++ p.wingspan ++ ['\n'] ++ p.desc)
          ++ ['\n'] ++ ['\n']
          ++ (q.name ++ ['\n'] ++ q.cruise ++ ['\n'] ++ q.wingspan ++ ['\n'] ++ q.desc)) := by
  refine ⟨save_eq_layout planes, ?_, ?_⟩
  · intro last hlast
    rw [save_eq_layout]
    exact layout_ends_with_last planes last hlast
  · intro p q hpq
    rw [save_eq_layout, hpq]
    simp [file_layout, record_lines]

theorem C2_save_layout_witness :
    save_plane_data store_two store_two.length
      = " Boeing 747\n570 \n195 ft\nJet\n\nCessna\n140\n36 ft\nLight".toList := by
  rw [(C2_save_layout store_two (by decide)).1]
  decide

/-- C3, as stated, fails. A name line of 99 characters fills the 100-byte
buffer without its terminator: the name is cut to 49 characters, but the rest
of the line (here only its terminator) is not discarded, it is read as the
cruise line, and every later field comes from one line too early. And a line
that holds a NUL is stored only up to the NUL. -/
theorem C3_truncation_counterexample :
    (read_plane_data file_long_name
      = some (⟨List.replicate 49 'A', [], "500".toList, "60 ft".toList⟩, "Jet\n".toList) ∧
    read_plane_data file_long_name
      ≠ some (⟨List.replicate 49 'A', "500".toList, "60 ft".toList, "Jet".toList⟩, [])) ∧
    (read_plane_data file_nul_name
      = some (⟨"Boe".toList, "500".toList, "60 ft".toList, "Jet".toList⟩, []) ∧
    read_plane_data file_nul_name
      ≠ some (⟨"Boe\x00ing".toList, "500".toList, "60 ft".toList, "Jet".toList⟩, [])) := by
  decide

/-- C3, amended. For every record text whose name, cruise and wingspan lines
have at most 98 characters and whose description line has at most 99, all
without NUL, and whose name line is not empty, `read_plane_data` (after any
blank lines) stores the first 49 / 9 / 19 / 99 characters of the name / cruise
/ wingspan / description line, terminator stripped; the characters beyond are
dropped and the next record is read from what follows the description line.
The same fields are stored when the stream ends with a non-empty description
line that has no terminator. -/
theorem C3_truncation_amended (t : RecordText) (h : t.WellFormed) (b : Nat)
    (rest : List Char) :
    read_plane_data (blank_lines b ++ (t.chars ++ '\n' :: rest))
      = some (⟨t.name_line.take 49, t.cruise_line.take 9, t.wingspan_line.take 19,
               t.desc_line.take 99⟩,
              if t.desc_line.length = 99 then '\n' :: rest else rest) ∧
    read_plane_data (if t.desc_line.length = 99 then '\n' :: rest else rest)
      = read_plane_data rest ∧
    (t.desc_line ≠ [] →
      read_plane_data (blank_lines b ++ t.chars)
        = some (⟨t.name_line.take 49, t.cruise_line.take 9, t.wingspan_line.take 19,
                 t.desc_line.take 99⟩, [])) := by
  refine ⟨?_, ?_, ?_⟩
  · rw [read_plane_data_blank_lines]
    exact read_plane_data_record t h rest
  · split
    · exact read_plane_data_blank rest
    · rfl
  · intro hd
    rw [read_plane_data_blank_lines]
    exact read_plane_data_last t h hd

theorem C3_truncation_amended_witness :
    read_plane_data (blank_lines 2 ++
        ((List.replicate 60 'A' ++ ['\n'] ++ "about 500 mph".toList ++ ['\n']
            ++ List.replicate 30 'w' ++ ['\n'] ++ List.replicate 99 'd')
          ++ '\n' :: "Cessna\n".toList))
      = some (⟨List.replicate 49 'A', "about 500".toList, List.replicate 19 'w',
               List.replicate 99 'd'⟩, "\nCessna\n".toList) :=
  (C3_truncation_amended
    ⟨List.replicate 60 'A', "about 500 mph".toList, List.replicate 30 'w',
      List.replicate 99 'd'⟩ (by decide) 2 "Cessna\n".toList).1

/-- C4. Every field of every record returned by `load_plane_data`, for every
input, has no whitespace at either end and at most 49 / 9 / 19 / 99
characters; and `edit_plane` keeps this: for a store that satisfies it, a valid
choice and any replies, every record of the resulting store satisfies it. -/
theorem C4_normalized_invariant (file : Option (List Char)) (planes : List Plane)
    (choice : Nat) (a_name a_cruise a_wingspan a_desc : Answer)
    (hinv : ∀ p ∈ planes, PlaneNormalized p) (h1 : 1 ≤ choice) (h2 : choice ≤ planes.length) :
    (∀ p ∈ (load_plane_data file).2, PlaneNormalized p) ∧
    (∀ p ∈ edit_plane planes choice a_name a_cruise a_wingspan a_desc, PlaneNormalized p) :=
  ⟨load_plane_data_normalized file,
    edit_plane_normalized planes choice a_name a_cruise a_wingspan a_desc hinv h1 h2⟩

theorem C4_normalized_invariant_witness :
    PlaneNormalized ⟨"Airbus A380".toList, "560".toList, "195 ft".toList, "Jet".toList⟩ ∧
    edit_plane [⟨"Boeing 747".toList, "570".toList, "195 ft".toList, "Jet".toList⟩] 1
        ⟨'Y', "  Airbus A380 \nrest".toList⟩ ⟨'Y', " 560\n".toList⟩ ⟨'N', []⟩ ⟨'Y', []⟩
      = [⟨"Airbus A380".toList, "560".toList, "195 ft".toList, "Jet".toList⟩] :=
  ⟨(C4_normalized_invariant none
      [⟨"Boeing 747".toList, "570".toList, "195 ft".toList, "Jet".toList⟩] 1
      ⟨'Y', "  Airbus A380 \nrest".toList⟩ ⟨'Y', " 560\n".toList⟩ ⟨'N', []⟩ ⟨'Y', []⟩
      (by decide) (by decide) (by decide)).2 _ (by decide), by decide⟩

/-- C5. Normalisation is idempotent: for every string `s` and every cap
`n >= 1`, normalising twice gives the same as normalising once, and
`trim_string` applied twice gives the same as applied once. -/
theorem C5_normalize_idempotent (s : List Char) (n : Nat) (_hn : 1 ≤ n) :
    normalize (normalize s n) n = normalize s n ∧
      trim_string (trim_string s) = trim_string s :=
  ⟨normalize_normalize s n, trim_trim s⟩

theorem C5_normalize_idempotent_witness :
    1 ≤ 13 ∧ (normalize (normalize "  Boeing 747  and more".toList 13) 13
        = normalize "  Boeing 747  and more".toList 13 ∧
      trim_string (trim_string "  Boeing 747  and more".toList)
        = trim_string "  Boeing 747  and more".toList) :=
  ⟨by decide, C5_normalize_idempotent "  Boeing 747  and more".toList 13 (by decide)⟩

/-- C6. `trim_string` removes exactly the leading and the trailing whitespace:
the result is the string without its longest whitespace start and longest
whitespace end; the string is the result with whitespace only before and after
it (so the inside is unchanged), and the result neither starts nor ends with
whitespace; whitespace is space, `\t`, `\n`, `\v`, `\f`, `\r`; an empty or
all-whitespace string becomes empty and `"  Boeing 747  "` becomes
`"Boeing 747"`. -/
theorem C6_trim_string_strips_exactly (s : List Char) :
    trim_string s = strip_both_ends s ∧
    (∃ lead trail : List Char, s = lead ++ trim_string s ++ trail ∧
      (∀ c ∈ lead, isspace c = true) ∧ (∀ c ∈ trail, isspace c = true)) ∧
    starts_clean (trim_string s) = true ∧ ends_clean (trim_string s) = true ∧
    (∀ c : Char, isspace c = true ↔ c ∈ [' ', '\t', '\n', '\x0b', '\x0c', '\r']) ∧
    ((∀ c ∈ s, isspace c = true) → trim_string s = []) ∧
    trim_string [] = [] ∧
    trim_string "  Boeing 747  ".toList = "Boeing 747".toList := by
  refine ⟨trim_eq_strip_both_ends s, trim_decompose s, starts_clean_trim s, ends_clean_trim s,
    ?_, trim_of_all_space s, rfl, by decide⟩
  intro c
  simp only [isspace, Bool.or_eq_true, beq_iff_eq, List.mem_cons, List.mem_singleton,
    List.not_mem_nil, or_false, or_assoc]

theorem C6_trim_string_strips_exactly_witness :
    trim_string " \t Boeing  747\r\n".toList = "Boeing  747".toList ∧
      trim_string " \t\x0b\x0c\r\n".toList = [] := by
  have h := C6_trim_string_strips_exactly " \t\x0b\x0c\r\n".toList
  exact ⟨by decide, h.2.2.2.2.2.1 (by decide)⟩

/-- C7. For every file that holds more than 10 well-formed records (in the
layout of `save_plane_data`, with any number of extra blank lines before each
record), `load_plane_data` returns exactly 10 and the records stored are the
first 10 of the file, in file order, each field cut to its cap and trimmed;
and whatever follows the description line of the tenth record has no effect. -/
theorem C7_capacity (recs : List (Nat × RecordText)) (hk : MAX_PLANES < recs.length)
    (hwf : ∀ r ∈ recs, r.2.WellFormed) :
    load_plane_data (some (file_with_blanks recs))
      = (10, (recs.take 10).map (fun r => trim_plane r.2.stored)) ∧
    (∀ rest : List Char,
      load_plane_data (some (framed_records (recs.take 10) ++ rest))
        = (10, (recs.take 10).map (fun r => trim_plane r.2.stored))) := by
  have hlen : (recs.take 10).length = 10 := by
    rw [List.length_take]; simp only [MAX_PLANES] at hk; omega
  constructor
  · have h := load_loop_file recs hwf MAX_PLANES (Or.inl hk)
    simp only [load_plane_data, h, List.length_take, List.length_map, List.map_take,
      List.map_map]
    refine Prod.ext ?_ rfl
    simp only [MAX_PLANES] at hk ⊢
    omega
  · intro rest
    have h := load_loop_framed (recs.take 10)
      (fun r hr => hwf r (List.mem_of_mem_take hr)) 10 rest
    have h0 : load_loop 0 rest = [] := rfl
    have h2 : List.take 10 (List.map (fun r : Nat × RecordText => r.2.stored) (List.take 10 recs))
        = List.map (fun r => r.2.stored) (List.take 10 recs) :=
      List.take_of_length_le (by rw [List.length_map, hlen])
    rw [hlen, Nat.sub_self, h0, List.append_nil, h2] at h
    show ((load_loop 10 (framed_records (List.take 10 recs) ++ rest)).length,
      (load_loop 10 (framed_records (List.take 10 recs) ++ rest)).map trim_plane) = _
    rw [h, List.length_map, hlen, List.map_map]
    rfl

theorem C7_capacity_witness :
    load_plane_data (some (file_with_blanks fifteen_records))
      = (10, (List.range 10).map (fun i => (text_nr i).stored)) := by
  rw [(C7_capacity fifteen_records (by decide) (by decide)).1]
  decide

/-- C8. For every file made of at most 10 complete well-formed records followed
by only 1, 2 or 3 lines of a further record (the last of these lines with or
without its terminator), `load_plane_data` returns the number of complete
records and stores them, the same as for the file without the cut record; and
`read_plane_data` answers the cut record as it answers the end of the stream,
with `false`. -/
theorem C8_cut_last_record (recs : List (Nat × RecordText)) (b : Nat)
    (lines : List (List Char)) (terminated : Bool)
    (hn : recs.length ≤ MAX_PLANES) (hwf : ∀ r ∈ recs, r.2.WellFormed)
    (hlines : 1 ≤ lines.length ∧ lines.length ≤ 3)
    (hl : ∀ l ∈ lines, is_line l = true ∧ l.length ≤ LEN_DESC - 2)
    (hne : ∀ l, lines.head? = some l → l ≠ []) :
    load_plane_data (some (framed_records recs ++ (blank_lines b ++ cut_record lines terminated)))
      = (recs.length, recs.map (fun r => trim_plane r.2.stored)) ∧
    load_plane_data (some (framed_records recs ++ (blank_lines b ++ cut_record lines terminated)))
      = load_plane_data (some (framed_records recs)) ∧
    read_plane_data (cut_record lines terminated) = none ∧
    read_plane_data [] = none := by
  have htake : List.take MAX_PLANES (List.map (fun r : Nat × RecordText => r.2.stored) recs)
      = List.map (fun r => r.2.stored) recs :=
    List.take_of_length_le (by rw [List.length_map]; exact hn)
  have h1 : load_loop MAX_PLANES
      (framed_records recs ++ (blank_lines b ++ cut_record lines terminated))
      = recs.map (fun r => r.2.stored) := by
    rw [load_loop_framed recs hwf, load_loop_blank_lines, load_loop_cut _ _ _ hlines hl hne,
      htake, List.append_nil]
  have h2 : load_loop MAX_PLANES (framed_records recs) = recs.map (fun r => r.2.stored) := by
    have := load_loop_framed recs hwf MAX_PLANES []
    rw [List.append_nil, load_loop_nil, htake, List.append_nil] at this
    exact this
  refine ⟨?_, ?_, read_plane_data_cut lines terminated hlines hl hne, rfl⟩
  · simp only [load_plane_data, h1, List.length_map, List.map_map]
    rfl
  · simp only [load_plane_data, h1, h2]

theorem C8_cut_last_record_witness :
    load_plane_data (some (framed_records two_records ++
        (blank_lines 1 ++ cut_record ["Cessna".toList, "140".toList] false)))
      = (2, [(text_nr 0).stored, (text_nr 1).stored]) := by
  rw [(C8_cut_last_record two_records 1 ["Cessna".toList, "140".toList] false
    (by decide) (by decide) (by decide) (by decide) (by decide)).1]
  decide

/-- C9. For every file of well-formed records in the layout of
`save_plane_data`, with or without blank lines before its records, and every
file obtained from it by inserting any number of extra blank lines before the
name line of any record, `load_plane_data` returns the same count and the same
records for both. -/
theorem C9_blank_lines (recs : List (Nat × Nat × RecordText))
    (hwf : ∀ r ∈ recs, r.2.2.WellFormed) :
    load_plane_data (some (file_with_blanks (recs.map (fun r => (r.1 + r.2.1, r.2.2)))))
      = load_plane_data (some (file_with_blanks (recs.map (fun r => (r.1, r.2.2))))) ∧
    load_plane_data (some (file_with_blanks (recs.map (fun r => (r.2.1, r.2.2)))))
      = load_plane_data (some (file_with_blanks (recs.map (fun r => (0, r.2.2))))) := by
  have key : ∀ f : Nat × Nat × RecordText → Nat,
      load_loop MAX_PLANES (file_with_blanks (recs.map (fun r => (f r, r.2.2))))
        = load_loop MAX_PLANES (file_with_blanks (recs.map (fun r => (0, r.2.2)))) := by
    intro f
    rw [load_loop_file_blanks]
    · rw [List.map_map]; rfl
    · intro r hr
      obtain ⟨q, hq, rfl⟩ := List.mem_map.mp hr
      exact hwf q hq
  constructor
  · simp only [load_plane_data, key (fun r => r.1 + r.2.1), key (fun r => r.1)]
  · simp only [load_plane_data, key (fun r => r.2.1)]

theorem C9_blank_lines_witness :
    load_plane_data (some "\n\nA\n500\n60 ft\nJet\n\n\n\n\nB\n500\n60 ft\nJet".toList)
      = load_plane_data (some "A\n500\n60 ft\nJet\n\nB\n500\n60 ft\nJet".toList) :=
  (C9_blank_lines two_records_extra (by decide)).2

/-- C10. For every store of 1 to 10 records whose fields fit their caps (49 /
9 / 19 / 99 characters) and hold no line terminator, if every name is
non-empty and the last description is non-empty, then `load_plane_data`
applied to the output of `save_plane_data` returns the same number of records
and record `i` of the result holds `trim_string` of each field of record `i`
of the store; descriptions of exactly 99 characters are within the caps. -/
theorem C10_lossless_condition (planes : List Plane)
    (hn : 1 ≤ planes.length ∧ planes.length ≤ MAX_PLANES)
    (hfit : ∀ p ∈ planes, p.FitsCaps) (hname : ∀ p ∈ planes, p.name ≠ [])
    (hdesc : ∀ p, planes.getLast? = some p → p.desc ≠ []) :
    (load_plane_data (some (save_plane_data planes planes.length))).1 = planes.length ∧
    (∀ (i : Nat) (p : Plane), planes[i]? = some p →
      (load_plane_data (some (save_plane_data planes planes.length))).2[i]?
        = some ⟨trim_string p.name, trim_string p.cruise, trim_string p.wingspan,
            trim_string p.desc⟩) := by
  rw [load_plane_data_save planes hn.2 hfit hname hdesc]
  refine ⟨rfl, ?_⟩
  intro i p hp
  simp only [List.getElem?_map, hp, Option.map_some', trim_plane]

theorem C10_lossless_condition_witness :
    (∀ p ∈ store_full_desc, p.desc.length = 99) ∧
    (load_plane_data (some (save_plane_data store_full_desc store_full_desc.length))).1 = 2 ∧
    (load_plane_data (some (save_plane_data store_full_desc store_full_desc.length))).2[0]?
      = some ⟨"Boeing 747".toList, "570".toList, "195 ft".toList, List.replicate 99 'j'⟩ :=
  ⟨by decide,
    (C10_lossless_condition store_full_desc (by decide) (by decide) (by decide) (by decide)).1,
    (C10_lossless_condition store_full_desc (by decide) (by decide) (by decide) (by decide)).2
      0 _ rfl⟩

end FindPlaneData
